import Mathlib

set_option maxRecDepth 4000

/-!
Shallow embedding of the steno translation core (`src/steno/mod.rs`).

Text is modelled as `List Char` (Rust `String` is UTF-8; byte positions are
computed from `Char.utf8Size`, which agrees with Rust's `len_utf8`).
The dictionary, the orthography rule and the key set live behind interfaces
in the Rust crate (`crate::dict`, `crate::keys`, `orthography`,
`chars_or_bytes` are not part of the shown core); they are modelled from the
spec's interface descriptions (§3, §6) and passed as parameters where the
source does the same.
-/

/-- Modelled from the spec: `Key` is an "atomic member of a fixed enumerated
set of chord positions" (the standard steno layout; `crate::keys` is not part
of the shown core).  The members referenced by `src/steno/mod.rs` (`S`, `T`,
`P`, `H`, `A`, `O`, `F`, `P2`, `L`, `T2`, `NumberBar`, `E`, `U`, `D`, `Z`,
`K`, `B`, `G`) are all present. -/
inductive Key where
  | NumberBar
  | S | T | K | P | W | H | R
  | A | O | Star | E | U
  | F | R2 | P2 | B | L | G | T2 | S2 | D | Z
deriving DecidableEq

/-- The complete list of keys, in canonical steno order. -/
def Key.all : List Key :=
  [.NumberBar, .S, .T, .K, .P, .W, .H, .R, .A, .O, .Star, .E, .U,
   .F, .R2, .P2, .B, .L, .G, .T2, .S2, .D, .Z]

/-- Modelled from the spec: `Keys` is "a set of Key (chord)". -/
def Keys : Type := Key → Bool

/-- The chord containing a single key. -/
def Keys.one (x : Key) : Keys := fun y => decide (y = x)

/-- The chord containing the listed keys (Rust builds chords with `|`). -/
def Keys.ofList (l : List Key) : Keys := fun y => decide (y ∈ l)

/-- Whether every key of `s` is in `k` (bitflags `contains`). -/
def Keys.containsAll (k s : Keys) : Bool :=
  decide (∀ x ∈ Key.all, s x = true → k x = true)

/-- Modelled from the spec: the destructive "remove and report whether
present" operation on chords (§3).  When every key of `s` is present it is
removed and `true` reported; otherwise the chord is unchanged. -/
def Keys.remove (k s : Keys) : Keys × Bool :=
  if k.containsAll s then (fun x => k x && !s x, true) else (k, false)

/-- A chord is empty when no key is set. -/
def Keys.isEmpty (k : Keys) : Bool := decide (∀ x ∈ Key.all, k x = false)

instance : DecidableEq Keys := fun a b =>
  if h : Key.all.all fun x => a x == b x then
    .isTrue (funext fun k => by
      have hk : k ∈ Key.all := by cases k <;> decide
      have := List.all_eq_true.mp h k hk
      exact eq_of_beq this)
  else
    .isFalse (fun hab => h (by subst hab; simp))

/-- Modelled from the spec: the "deterministic string form of the chord"
used for literal fallback rendering (`Keys`' `Display` lives in
`crate::keys`, outside the shown core).  Keys are printed in canonical steno
order; right-bank keys carry a hyphen to stay unambiguous. -/
def Key.name : Key → List Char
  | .NumberBar => ['#']
  | .S => ['S'] | .T => ['T'] | .K => ['K'] | .P => ['P'] | .W => ['W']
  | .H => ['H'] | .R => ['R'] | .A => ['A'] | .O => ['O'] | .Star => ['*']
  | .E => ['E'] | .U => ['U']
  | .F => ['-', 'F'] | .R2 => ['-', 'R'] | .P2 => ['-', 'P']
  | .B => ['-', 'B'] | .L => ['-', 'L'] | .G => ['-', 'G']
  | .T2 => ['-', 'T'] | .S2 => ['-', 'S'] | .D => ['-', 'D'] | .Z => ['-', 'Z']

/-- The deterministic string form of a chord. -/
def keysToString (k : Keys) : List Char :=
  (Key.all.map fun x => if k x then Key.name x else []).flatten

/-- Modelled from the spec: the dual-unit length counter
(`chars_or_bytes::CharsOrBytes`, outside the shown core): "lengthOf(text) ->
(charCount, byteCount); supports addition and subtraction while keeping both
units consistent" (§6). -/
structure CharsOrBytes where
  chars : Nat
  bytes : Nat
deriving DecidableEq

instance : Add CharsOrBytes := ⟨fun a b => ⟨a.chars + b.chars, a.bytes + b.bytes⟩⟩

instance : Sub CharsOrBytes := ⟨fun a b => ⟨a.chars - b.chars, a.bytes - b.bytes⟩⟩

/-- UTF-8 byte length of a text (Rust `str::len`). -/
def byteLen (s : List Char) : Nat := (s.map Char.utf8Size).sum

/-- The dual-unit length of a text (`CharsOrBytes::for_str`). -/
def CharsOrBytes.for_str (s : List Char) : CharsOrBytes := ⟨s.length, byteLen s⟩

/-- The prefix of `s` spanning (at most) `n` UTF-8 bytes (Rust
`String::truncate` keeps the first `n` bytes; the source only truncates at
character boundaries, where this model agrees exactly). -/
def takeBytes : List Char → Nat → List Char
  | [], _ => []
  | c :: cs, n => if c.utf8Size ≤ n then c :: takeBytes cs (n - c.utf8Size) else []

/-- The suffix of `s` after the first `n` UTF-8 bytes. -/
def dropBytes : List Char → Nat → List Char
  | [], _ => []
  | c :: cs, n =>
    if n = 0 then c :: cs
    else if c.utf8Size ≤ n then dropBytes cs (n - c.utf8Size) else c :: cs

/-- The pending edit for one resolved chord (`Output`): whole-word deletions,
a dual-unit delete span, and the staged append text. -/
structure Output where
  delete_words : Nat
  delete : CharsOrBytes
  append : List Char
deriving DecidableEq

/-- Rust `Output::new`: start from a delete span with nothing staged. -/
def Output.new (delete : CharsOrBytes) : Output := ⟨0, delete, []⟩

/-- Rust `Output::delete`: if the amount fits inside the text staged this call,
trim it from the staged text's tail; otherwise consume all staged text and
grow the running delete span by the remainder. -/
def Output.applyDelete (o : Output) (amount : CharsOrBytes) : Output :=
  if amount.bytes ≤ byteLen o.append then
    { o with append := takeBytes o.append (byteLen o.append - amount.bytes) }
  else
    { o with delete := o.delete + (amount - CharsOrBytes.for_str o.append),
             append := [] }

/-- Rust `Output::delete_words`: asserts that no text is staged (`none` models the
Rust `assert!` panic), then adds to the whole-word deletion count. -/
def Output.applyDeleteWords (o : Output) (words : Nat) : Option Output :=
  if o.append.isEmpty then some { o with delete_words := o.delete_words + words }
  else none

/-- Rust `Output::append`: concatenate onto the staged text. -/
def Output.applyAppend (o : Output) (text : List Char) : Output :=
  { o with append := o.append ++ text }

/-- Rust `Output::replace`: delete the old span, then append the new text. -/
def Output.applyReplace (o : Output) (old_len : CharsOrBytes) (new : List Char) : Output :=
  (o.applyDelete old_len).applyAppend new

/-- Modelled from the spec: special punctuation (`dict::EntryPart`'s
punctuation payload lives outside the shown core): "append its text verbatim;
set pendingSpace; capsMode force-upper if the punctuation ends a sentence"
(§4.4, §8 lists `.`, `!`, `?`, and the comma). -/
inductive Punct where
  | period | comma | exclam | question | colon | semicolon
deriving DecidableEq

/-- The verbatim text of a punctuation mark. -/
def Punct.text : Punct → List Char
  | .period => ['.'] | .comma => [','] | .exclam => ['!']
  | .question => ['?'] | .colon => [':'] | .semicolon => [';']

/-- Whether the punctuation ends a sentence (`is_sentence_end`). -/
def Punct.isSentenceEnd : Punct → Bool
  | .period => true | .exclam => true | .question => true
  | .comma => false | .colon => false | .semicolon => false

/-- The engine commands this core interprets (`dict::PloverCommand`; the spec
fixes exactly `{Backspace, Quit}`, matching the exhaustive match in
`run_action`). -/
inductive PloverCommand where
  | Backspace
  | Quit
deriving DecidableEq

/-- One compiled dictionary instruction (`dict::EntryPart`). -/
inductive EntryPart where
  | Verbatim (text : List Char)
  | SpecialPunct (p : Punct)
  | SetCaps (b : Bool)
  | SetSpace (b : Bool)
  | CarryToNext
  | Glue
  | Plover (c : PloverCommand)
deriving DecidableEq

/-- A dictionary definition's compiled output program (`dict::Entry`). -/
def Entry : Type := List EntryPart

instance : DecidableEq Entry := inferInstanceAs (DecidableEq (List EntryPart))

/-- The caller-visible termination signal (`SpecialAction`); it carries no
payload. -/
inductive SpecialAction where
  | Quit
deriving DecidableEq

deriving instance DecidableEq for Except

/-- Persistent formatting state (`InputState`). -/
structure InputState where
  caps : Option Bool
  space : Bool
  carry_to_next : Bool
  glue : Bool
deriving DecidableEq

/-- Rust `InputState::INITIAL`: force-upper, no pending space, no carry, not
glued. -/
def InputState.INITIAL : InputState :=
  ⟨some true, false, false, false⟩

/-- One journaled production (`InputEvent`): the strokes that produced it,
the exact text it emitted, and the formatting state in effect just before. -/
structure InputEvent where
  strokes : List Keys
  text : List Char
  state_before : InputState
deriving DecidableEq

/-- The engine's mutable state (`Steno`): formatting state plus the bounded
backlog (oldest event first, as in the Rust `VecDeque`'s front). -/
structure Steno where
  state : InputState
  backlog : List InputEvent
deriving DecidableEq

/-- Rust `Steno::new`'s state: initial formatting state, empty backlog. -/
def Steno.start : Steno := ⟨InputState.INITIAL, []⟩

/-- The read-only environment of a `Steno` engine: the dictionary capability
(`lookup` + `max_strokes`, trait `Dict`) and the external orthographic-fusion
rule (`orthography::apply_orthography_rules`, pure, outside the shown
core). -/
structure Config where
  lookup : List Keys → Option Entry
  maxStrokes : Nat
  ortho : List Char → List Char → Option (List Char)

/-- Rust `BACKLOG_DEPTH`: the journal's capacity. -/
def BACKLOG_DEPTH : Nat := 1000

/-- A resolved action (`Action` in the source; `Action` is taken in Lean):
the entry to run, the canonical strokes it resolves to, and how many trailing
backlog events to retract first. -/
structure Action' where
  entry : Entry
  strokes : List Keys
  delete_before : Nat
deriving DecidableEq

/-- The fixed key→digit table of the numeral formatter (`NUMBERS` in
`make_numbers`). -/
def numberTable : List (Key × Char) :=
  [(.S, '1'), (.T, '2'), (.P, '3'), (.H, '4'), (.A, '5'),
   (.O, '0'), (.F, '6'), (.P2, '7'), (.L, '8'), (.T2, '9')]

/-- Collect the digits of the mapped keys present in the chord, in table
order, removing each consumed key (the `for` loop of `make_numbers`). -/
def stripDigits (keys : Keys) : List Char × Keys :=
  numberTable.foldl
    (fun acc kc =>
      let r := acc.2.remove (Keys.one kc.1)
      if r.2 then (acc.1 ++ [kc.2], r.1) else (acc.1, r.1))
    ([], keys)

/-- The reversal rule: if the `E`/`U` pair is present, reverse the digits. -/
def stageReverse (ds : List Char) (keys : Keys) : List Char × Keys :=
  let r := keys.remove (Keys.ofList [.E, .U])
  (if r.2 then ds.reverse else ds, r.1)

/-- The dollar / double / cents rules: the `D`/`Z` pair prefixes `$` and
appends `00`, taking precedence; otherwise `D` alone doubles the digits and
`Z` alone appends `00`. -/
def stageDollar (ds : List Char) (keys : Keys) : List Char × Keys :=
  let r := keys.remove (Keys.ofList [.D, .Z])
  if r.2 then ('$' :: ds ++ ['0', '0'], r.1)
  else
    let rd := r.1.remove (Keys.one .D)
    let ds := if rd.2 then ds ++ ds else ds
    let rz := rd.1.remove (Keys.one .Z)
    (if rz.2 then ds ++ ['0', '0'] else ds, rz.1)

/-- The time rule: `K`, or failing that the `B`/`G` pair, appends `:00` (the
Rust `||` short-circuits, so `B|G` is only tried when `K` was absent). -/
def stageTime (ds : List Char) (keys : Keys) : List Char × Keys :=
  let rk := keys.remove (Keys.one .K)
  if rk.2 then (ds ++ [':', '0', '0'], rk.1)
  else
    let rbg := rk.1.remove (Keys.ofList [.B, .G])
    (if rbg.2 then ds ++ [':', '0', '0'] else ds, rbg.1)

/-- The full numeral pipeline: strip the number bar, collect digits, then
apply the modifier rules in source order.  Returns the built string and the
unconsumed keys. -/
def numeralRun (keys : Keys) : List Char × Keys :=
  let k0 := (keys.remove (Keys.one .NumberBar)).1
  let s1 := stripDigits k0
  let s2 := stageReverse s1.1 s1.2
  let s3 := stageDollar s2.1 s2.2
  stageTime s3.1 s3.2

/-- Rust `make_numbers`: the numeral formatter.  Fails (falls back to literal
rendering) exactly when some key remains unconsumed. -/
def make_numbers (keys : Keys) : Option (List Char) :=
  let r := numeralRun keys
  if r.2.isEmpty then some r.1 else none

/-- Rust `make_simple_action`: a single-chord action with no retraction. -/
def make_simple_action (entry : Entry) (keys : Keys) : Action' :=
  ⟨entry, [keys], 0⟩

/-- Rust `make_text_action`: a single-chord verbatim action. -/
def make_text_action (text : List Char) (keys : Keys) : Action' :=
  make_simple_action [.Verbatim text] keys

/-- Rust `make_fallback_action`: literal rendering of the chord itself. -/
def make_fallback_action (keys : Keys) : Action' :=
  make_text_action (keysToString keys) keys

/-- The candidate lookup window: the strokes of the given backlog events
(oldest first) concatenated with the new chord (`all_strokes[skip..]` in
`find_action`). -/
def window (events : List InputEvent) (this : Keys) : List Keys :=
  (events.map (fun e => e.strokes)).flatten ++ [this]

/-- The backlog events eligible for retroactive matching: the most recent
`max` events (`backlog.range(len.saturating_sub(max)..)`). -/
def windowEvents (st : Steno) (max : Nat) : List InputEvent :=
  st.backlog.drop (st.backlog.length - max)

/-- The matching loop of `find_action`: try the window of all remaining
events plus the new chord; on failure drop the oldest event and retry, down
to the single-chord window; fall back to literal rendering when every window
misses.  A match's `delete_before` is the number of events in the winning
window. -/
def searchLoop (lookup : List Keys → Option Entry) (this : Keys) :
    List InputEvent → Action'
  | [] =>
    match lookup (window [] this) with
    | some entry => ⟨entry, window [] this, 0⟩
    | none => make_fallback_action this
  | ev :: rest =>
    match lookup (window (ev :: rest) this) with
    | some entry => ⟨entry, window (ev :: rest) this, (ev :: rest).length⟩
    | none => searchLoop lookup this rest

/-- Rust `find_action`: number-bar chords go through the numeral formatter (an
all-digit result is prefixed with a glue marker); other chords go through the
backlog window search. -/
def find_action (cfg : Config) (st : Steno) (this_keys : Keys) : Action' :=
  if this_keys .NumberBar then
    match make_numbers this_keys with
    | none => make_fallback_action this_keys
    | some text =>
      let entry : Entry :=
        if text.all Char.isDigit then [.Glue, .Verbatim text]
        else [.Verbatim text]
      make_simple_action entry this_keys
  else
    searchLoop cfg.lookup this_keys (windowEvents st cfg.maxStrokes)

/-- The retraction phase of `run_action` (its first three statements):
restore the formatting state recorded before the first retracted event, sum
the retracted events' dual-unit text lengths into the initial delete span,
and drop those events from the backlog. -/
def rewind (st : Steno) (delete_before : Nat) : Steno × CharsOrBytes :=
  let first_removed := st.backlog.length - delete_before
  let st1 :=
    match st.backlog[first_removed]? with
    | some restore => { st with state := restore.state_before }
    | none => st
  let delete :=
    ((st1.backlog.drop first_removed).map fun e => CharsOrBytes.for_str e.text).foldl
      (· + ·) ⟨0, 0⟩
  ({ st1 with backlog := st1.backlog.take first_removed }, delete)

/-- Clear the one-instruction-boundary glue flag (`self.state.glue = false`
before the instruction loop). -/
def clearGlue (st : Steno) : Steno :=
  { st with state := { st.state with glue := false } }

/-- The `EntryPart::Verbatim` arm of `run_part`: optional separator space,
orthographic fusion against the preceding text, first-character case
forcing, and the one-shot carry suppressor. -/
def runVerbatim (cfg : Config) (st : Steno) (out : Output) (text : List Char) :
    Steno × Output :=
  let out := if st.state.space then out.applyAppend [' '] else out
  let first_pos := byteLen out.append
  let step :=
    if st.state.space then (out, false)
    else
      let before :=
        if out.append.isEmpty then
          ((st.backlog.getLast?).map fun e => e.text).getD []
        else out.append
      match cfg.ortho before text with
      | some combined => (out.applyReplace (CharsOrBytes.for_str before) combined, true)
      | none => (out, false)
  let out := if step.2 then step.1 else step.1.applyAppend text
  let out :=
    match st.state.caps with
    | some b =>
      { out with
        append :=
          takeBytes out.append first_pos ++
            (match dropBytes out.append first_pos with
             | [] => []
             | c :: rest => (if b then c.toUpper else c.toLower) :: rest) }
    | none => out
  let state :=
    if st.state.carry_to_next then { st.state with carry_to_next := false }
    else { st.state with caps := none, space := true }
  ({ st with state := state }, out)

/-- Rust `run_part`: interpret one instruction against the formatting state,
writing into the output accumulator; engine commands are signalled to the
executor without touching state or output. -/
def run_part (cfg : Config) (st : Steno) (out : Output) (prev_was_glue : Bool) :
    EntryPart → Except PloverCommand (Steno × Output)
  | .Verbatim text => .ok (runVerbatim cfg st out text)
  | .SpecialPunct punct =>
    .ok
      ({ st with
          state :=
            { st.state with
                space := true,
                caps := if punct.isSentenceEnd then some true else none } },
        out.applyAppend punct.text)
  | .SetCaps b => .ok ({ st with state := { st.state with caps := some b } }, out)
  | .SetSpace b => .ok ({ st with state := { st.state with space := b } }, out)
  | .CarryToNext =>
    .ok ({ st with state := { st.state with carry_to_next := true } }, out)
  | .Glue =>
    let s := st.state
    let s := if prev_was_glue then { s with space := false, caps := none } else s
    .ok ({ st with state := { s with glue := true } }, out)
  | .Plover c => .error c

/-- The instruction loop of `run_action`: every part observes the same
`prev_was_glue` flag (the Rust loop passes the fixed `state_before.glue`).
A `Backspace` signal pops the last backlog event (restoring its recorded
state and deleting its text) or, with an empty backlog, counts one whole-word
deletion — `none` models the `assert!` panic when text is staged.  A `Quit`
signal stops the loop and discards the accumulated output. -/
def runParts (cfg : Config) (prev_was_glue : Bool) :
    Steno → Output → List EntryPart → Option (Steno × Except SpecialAction Output)
  | st, out, [] => some (st, .ok out)
  | st, out, p :: rest =>
    match run_part cfg st out prev_was_glue p with
    | .ok (st', out') => runParts cfg prev_was_glue st' out' rest
    | .error .Backspace =>
      match st.backlog.getLast? with
      | some prev =>
        runParts cfg prev_was_glue
          { st with state := prev.state_before, backlog := st.backlog.dropLast }
          (out.applyDelete (CharsOrBytes.for_str prev.text)) rest
      | none =>
        match out.applyDeleteWords 1 with
        | some out' => runParts cfg prev_was_glue st out' rest
        | none => none
    | .error .Quit => some (st, .error .Quit)

/-- The journal-commit phase at the end of `run_action`: evict the oldest
event when the backlog is at capacity, then push a new event exactly when the
action produced non-empty text. -/
def commitEvent (st : Steno) (strokes : List Keys) (text : List Char)
    (state_before : InputState) : Steno :=
  let st :=
    if st.backlog.length = BACKLOG_DEPTH then { st with backlog := st.backlog.tail }
    else st
  if text.isEmpty then st
  else { st with backlog := st.backlog ++ [⟨strokes, text, state_before⟩] }

/-- Rust `run_action`: retract, run the instructions, then commit to the journal.
`none` models the `delete_words` assertion panic; an `Except.error` result is
the `Quit` termination, which skips the journal commit and carries no
output. -/
def run_action (cfg : Config) (st : Steno) (action : Action') :
    Option (Steno × Except SpecialAction Output) :=
  let r := rewind st action.delete_before
  let state_before := r.1.state
  match runParts cfg state_before.glue (clearGlue r.1) (Output.new r.2) action.entry with
  | none => none
  | some (st3, .error q) => some (st3, .error q)
  | some (st3, .ok out) =>
    some (commitEvent st3 action.strokes out.append state_before, .ok out)

/-- Rust `handle_keys`: resolve the chord, then execute the action. -/
def handle_keys (cfg : Config) (st : Steno) (keys : Keys) :
    Option (Steno × Except SpecialAction Output) :=
  run_action cfg st (find_action cfg st keys)

/-- Run a sequence of chords through the engine, stopping at a `Quit`
termination and propagating an assertion panic. -/
def handleSeq (cfg : Config) : Steno → List Keys → Option Steno
  | st, [] => some st
  | st, k :: ks =>
    match handle_keys cfg st k with
    | none => none
    | some (st', .error _) => some st'
    | some (st', .ok _) => handleSeq cfg st' ks

/-! ## Shared fixtures and basic lemmas -/

/-- A configuration whose dictionary never matches and whose orthography rule
never fuses. -/
def emptyConfig : Config := ⟨fun _ => none, 1, fun _ _ => none⟩

/-- The single-key chord `S`. -/
def chordS : Keys := Keys.ofList [.S]

/-- A sample journal event. -/
def ev0 : InputEvent := ⟨[chordS], ['X'], InputState.INITIAL⟩

/-- The 1-chord / 2-chord example dictionary of C2: the single chord `H` maps
to `"a"`, the two-chord outline `H R` maps to `"b"`; `max_strokes` is 2. -/
def chordH : Keys := Keys.ofList [.H]

/-- The second chord of the two-chord outline. -/
def chordR : Keys := Keys.ofList [.R]

/-- The 1-chord entry of the example dictionary. -/
def entryOne : Entry := [.Verbatim ['a']]

/-- The 2-chord entry of the example dictionary. -/
def entryTwo : Entry := [.Verbatim ['b']]

/-- The example dictionary configuration for the longest-match test. -/
def overlapConfig : Config :=
  ⟨fun l =>
    if l = [chordH] then some entryOne
    else if l = [chordH, chordR] then some entryTwo
    else none,
  2, fun _ _ => none⟩

/-- The dictionary that triggers the `delete_words` assertion: the chord `S`
maps to a verbatim text followed by a `Backspace` command. -/
def bugConfig : Config :=
  ⟨fun l => if l = [chordS] then some [.Verbatim ['x'], .Plover .Backspace] else none,
  1, fun _ _ => none⟩

/-- Follows the spec's words (§4.3 step 4): "Execute the Action's
instructions in order ..., threading the previous instruction's glue flag
into the next" — after every instruction the next one observes the glue flag
the state now carries.  This is the claimed behaviour, written for comparison
with `runParts`, which instead passes the fixed start-of-action flag to every
instruction, as the source does. -/
def runPartsThreadedSpec (cfg : Config) (prev_was_glue : Bool) :
    Steno → Output → List EntryPart → Option (Steno × Except SpecialAction Output)
  | st, out, [] => some (st, .ok out)
  | st, out, p :: rest =>
    match run_part cfg st out prev_was_glue p with
    | .ok (st', out') => runPartsThreadedSpec cfg st'.state.glue st' out' rest
    | .error .Backspace =>
      match st.backlog.getLast? with
      | some prev =>
        runPartsThreadedSpec cfg st.state.glue
          { st with state := prev.state_before, backlog := st.backlog.dropLast }
          (out.applyDelete (CharsOrBytes.for_str prev.text)) rest
      | none =>
        match out.applyDeleteWords 1 with
        | some out' => runPartsThreadedSpec cfg st.state.glue st out' rest
        | none => none
    | .error .Quit => some (st, .error .Quit)

/-- A state with a pending space and a clear glue flag, as at the start of an
action following a non-glued word. -/
def stG : Steno := ⟨⟨none, true, false, false⟩, []⟩

/-- The fixed point of the formatting state under repeated literal fallback
text: no forced caps, a pending space, no carry, no glue. -/
def stateSteady : InputState := ⟨none, true, false, false⟩

theorem Key.mem_all (k : Key) : k ∈ Key.all := by
  cases k <;> decide

theorem Keys.containsAll_iff (k s : Keys) :
    k.containsAll s = true ↔ ∀ x, s x = true → k x = true := by
  simp only [Keys.containsAll, decide_eq_true_eq]
  exact ⟨fun h x hx => h x (Key.mem_all x) hx, fun h x _ hx => h x hx⟩

theorem Keys.isEmpty_iff (k : Keys) : k.isEmpty = true ↔ ∀ x, k x = false := by
  simp only [Keys.isEmpty, decide_eq_true_eq]
  exact ⟨fun h x => h x (Key.mem_all x), fun h x _ => h x⟩

/-! ## C8: the numeral formatter -/

theorem stageDollar_pair (ds : List Char) (keys : Keys)
    (hD : keys .D = true) (hZ : keys .Z = true) :
    stageDollar ds keys =
      ('$' :: ds ++ ['0', '0'], (keys.remove (Keys.ofList [.D, .Z])).1) := by
  have hc : keys.containsAll (Keys.ofList [.D, .Z]) = true := by
    rw [Keys.containsAll_iff]
    intro x hx
    simp only [Keys.ofList, decide_eq_true_eq, List.mem_cons,
      List.mem_singleton, List.not_mem_nil, or_false] at hx
    rcases hx with h | h
    · subst h; exact hD
    · subst h; exact hZ
  simp [stageDollar, Keys.remove, hc]

/-- C8: the numeral formatter applies the modifier rules in source order and
fails whenever a key survives the whole pipeline; the dollar pair takes the
dedicated branch (prefix `$`, append `00`), bypassing the double and cents
rules; the chord of digits 1 and 2 yields `"12"`, with the `D` (double)
modifier `"1212"`, and with the `K` (time) modifier `"12:00"`. -/
theorem make_numbers_rules :
    (∀ keys : Keys, (numeralRun keys).2.isEmpty = false → make_numbers keys = none)
    ∧ (∀ (ds : List Char) (keys : Keys), keys .D = true → keys .Z = true →
        stageDollar ds keys =
          ('$' :: ds ++ ['0', '0'], (keys.remove (Keys.ofList [.D, .Z])).1))
    ∧ make_numbers (Keys.ofList [.NumberBar, .S, .T]) = some ['1', '2']
    ∧ make_numbers (Keys.ofList [.NumberBar, .S, .T, .D]) = some ['1', '2', '1', '2']
    ∧ make_numbers (Keys.ofList [.NumberBar, .S, .T, .K]) = some ['1', '2', ':', '0', '0'] := by
  refine ⟨fun keys h => ?_, stageDollar_pair, by decide, by decide, by decide⟩
  simp [make_numbers, h]

/-- Witness for the hypothesis-bearing parts of `make_numbers_rules`: the
chord `#W` leaves `W` unconsumed, so the formatter fails on it; a chord with
both `D` and `Z` takes the dollar branch. -/
theorem make_numbers_rules_witness :
    ((numeralRun (Keys.ofList [.NumberBar, .W])).2.isEmpty = false
      ∧ make_numbers (Keys.ofList [.NumberBar, .W]) = none)
    ∧ ((Keys.ofList [.NumberBar, .S, .D, .Z]) .D = true
      ∧ (Keys.ofList [.NumberBar, .S, .D, .Z]) .Z = true
      ∧ stageDollar ['1'] (Keys.ofList [.NumberBar, .S, .D, .Z]) =
          ('$' :: ['1'] ++ ['0', '0'],
            ((Keys.ofList [.NumberBar, .S, .D, .Z]).remove
              (Keys.ofList [.D, .Z])).1)) :=
  ⟨⟨by decide, make_numbers_rules.1 _ (by decide)⟩,
    ⟨by decide, by decide,
      make_numbers_rules.2.1 ['1'] _ (by decide) (by decide)⟩⟩

/-! ## C2 / C9: the window search of the resolver -/

theorem searchLoop_delete_before_le (lookup : List Keys → Option Entry)
    (this : Keys) :
    ∀ events : List InputEvent,
      (searchLoop lookup this events).delete_before ≤ events.length := by
  intro events
  induction events with
  | nil =>
    simp only [searchLoop]
    cases h : lookup (window [] this) <;>
      simp [make_fallback_action, make_text_action, make_simple_action]
  | cons ev rest ih =>
    simp only [searchLoop]
    cases h : lookup (window (ev :: rest) this) with
    | none => exact Nat.le_trans ih (by simp)
    | some e => simp

theorem searchLoop_eq_of_first (lookup : List Keys → Option Entry) (this : Keys) :
    ∀ (events : List InputEvent) (j : Nat) (e : Entry),
      j ≤ events.length →
      lookup (window (events.drop j) this) = some e →
      (∀ i < j, lookup (window (events.drop i) this) = none) →
      searchLoop lookup this events =
        ⟨e, window (events.drop j) this, events.length - j⟩ := by
  intro events
  induction events with
  | nil =>
    intro j e hj hmatch _
    have hj0 : j = 0 := Nat.le_zero.mp (by simpa using hj)
    subst hj0
    simp only [List.drop_zero] at hmatch
    simp [searchLoop, hmatch]
  | cons ev rest ih =>
    intro j e hj hmatch hmiss
    cases j with
    | zero =>
      simp only [List.drop_zero] at hmatch ⊢
      simp [searchLoop, hmatch]
    | succ j =>
      have h0 : lookup (window (ev :: rest) this) = none := by
        simpa using hmiss 0 (Nat.succ_pos j)
      have hrec := ih j e (Nat.succ_le_succ_iff.mp hj)
        (by simpa [List.drop_succ_cons] using hmatch)
        (fun i hi => by
          simpa [List.drop_succ_cons] using hmiss (i + 1) (Nat.succ_lt_succ hi))
      simp only [searchLoop, h0, List.drop_succ_cons]
      rw [hrec]
      simp [Nat.succ_sub_succ]

theorem searchLoop_eq_fallback (lookup : List Keys → Option Entry) (this : Keys) :
    ∀ events : List InputEvent,
      (∀ i ≤ events.length, lookup (window (events.drop i) this) = none) →
      searchLoop lookup this events = make_fallback_action this := by
  intro events
  induction events with
  | nil =>
    intro h
    have h0 := h 0 (Nat.le_refl 0)
    simp only [List.drop_zero] at h0
    simp [searchLoop, h0]
  | cons ev rest ih =>
    intro h
    have h0 : lookup (window (ev :: rest) this) = none := by
      simpa using h 0 (Nat.zero_le _)
    simp only [searchLoop, h0]
    exact ih fun i hi => by
      simpa [List.drop_succ_cons] using h (i + 1) (Nat.succ_le_succ hi)

/-- C2: confirmed.  For every non-number-bar chord and journal state, the
resolver tries the windows formed from the most recent (up to `max_strokes`)
journal events plus the new chord, longest first, shrinking only by dropping
whole events from the oldest end; the first window that matches wins, and the
action's retraction count is the number of whole journal events in that
window.  In particular, after submitting `H` against the example dictionary,
submitting `R` resolves to the two-chord entry with retraction count 1. -/
theorem find_action_longest_match :
    (∀ (cfg : Config) (st : Steno) (keys : Keys) (j : Nat) (e : Entry),
      keys .NumberBar = false →
      j ≤ (windowEvents st cfg.maxStrokes).length →
      cfg.lookup (window ((windowEvents st cfg.maxStrokes).drop j) keys) = some e →
      (∀ i < j,
        cfg.lookup (window ((windowEvents st cfg.maxStrokes).drop i) keys) = none) →
      find_action cfg st keys =
        ⟨e, window ((windowEvents st cfg.maxStrokes).drop j) keys,
          (windowEvents st cfg.maxStrokes).length - j⟩)
    ∧ (handleSeq overlapConfig Steno.start [chordH]).map
        (fun st => find_action overlapConfig st chordR) =
      some ⟨entryTwo, [chordH, chordR], 1⟩ := by
  constructor
  · intro cfg st keys j e hn hj hmatch hmiss
    rw [find_action, if_neg (by simp [hn])]
    exact searchLoop_eq_of_first cfg.lookup keys _ j e hj hmatch hmiss
  · decide

/-- Witness for `find_action_longest_match`: the general part applied to the
concrete two-chord situation (journal holding the event produced by `H`,
new chord `R`, winning window of one event). -/
theorem find_action_longest_match_witness :
    (chordR .NumberBar = false)
    ∧ (let st : Steno := ⟨⟨none, true, false, false⟩,
          [⟨[chordH], ['A'], InputState.INITIAL⟩]⟩
      find_action overlapConfig st chordR =
        ⟨entryTwo,
          window ((windowEvents st overlapConfig.maxStrokes).drop 0) chordR,
          (windowEvents st overlapConfig.maxStrokes).length - 0⟩) :=
  ⟨by decide,
    find_action_longest_match.1 overlapConfig
      ⟨⟨none, true, false, false⟩, [⟨[chordH], ['A'], InputState.INITIAL⟩]⟩
      chordR 0 entryTwo (by decide) (by decide) (by decide)
      (fun i hi => absurd hi (Nat.not_lt_zero i))⟩

/-- C9: confirmed.  A non-number-bar chord for which every window (including
the single-chord window) misses the dictionary resolves to the literal
fallback: a single-chord action whose entry is the deterministic string form
of the chord and whose retraction count is 0. -/
theorem find_action_fallback :
    ∀ (cfg : Config) (st : Steno) (keys : Keys),
      keys .NumberBar = false →
      (∀ i ≤ (windowEvents st cfg.maxStrokes).length,
        cfg.lookup (window ((windowEvents st cfg.maxStrokes).drop i) keys) = none) →
      find_action cfg st keys = ⟨[.Verbatim (keysToString keys)], [keys], 0⟩ := by
  intro cfg st keys hn hmiss
  rw [find_action, if_neg (by simp [hn])]
  exact searchLoop_eq_fallback cfg.lookup keys _ hmiss

/-- Witness for `find_action_fallback`: the empty dictionary with an empty
journal sends the chord `S` to its literal fallback with retraction 0. -/
theorem find_action_fallback_witness :
    (chordS .NumberBar = false)
    ∧ find_action emptyConfig Steno.start chordS =
        ⟨[.Verbatim (keysToString chordS)], [chordS], 0⟩ :=
  ⟨by decide,
    find_action_fallback emptyConfig Steno.start chordS (by decide)
      (fun i _ => rfl)⟩

/-! ## C3: retraction never underflows; the rewind phase -/

theorem list_getElem?_eq_drop_head {α : Type} :
    ∀ (l : List α) (k : Nat), l[k]? = (l.drop k).head? := by
  intro l
  induction l with
  | nil => intro k; simp
  | cons a l ih =>
    intro k
    cases k with
    | zero => simp
    | succ k => rw [List.getElem?_cons_succ, List.drop_succ_cons, ih k]

theorem find_action_delete_before_le (cfg : Config) (st : Steno) (keys : Keys) :
    (find_action cfg st keys).delete_before ≤ st.backlog.length := by
  rw [find_action]
  by_cases hn : keys .NumberBar = true
  · simp only [hn, if_true]
    cases make_numbers keys <;>
      simp [make_fallback_action, make_text_action, make_simple_action]
  · rw [if_neg (by simp [hn])]
    calc (searchLoop cfg.lookup keys (windowEvents st cfg.maxStrokes)).delete_before
        ≤ (windowEvents st cfg.maxStrokes).length :=
          searchLoop_delete_before_le cfg.lookup keys _
      _ ≤ st.backlog.length := by simp [windowEvents]

/-- C3: confirmed.  Every resolved action retracts at most the current
journal length, so the executor's rewind cannot underflow; the rewind splits
the journal into kept and removed parts with exactly `n` trailing events
removed, restores the formatting state recorded before the earliest removed
event (for `n = 0` nothing is removed and state and journal are untouched),
and the initial delete span is the sum of the removed events' dual-unit text
lengths. -/
theorem retraction_safe :
    (∀ (cfg : Config) (st : Steno) (keys : Keys),
      (find_action cfg st keys).delete_before ≤ st.backlog.length)
    ∧ (∀ (st : Steno) (n : Nat), n ≤ st.backlog.length →
      ∃ kept removed : List InputEvent,
        st.backlog = kept ++ removed ∧ removed.length = n ∧
        (rewind st n).1.backlog = kept ∧
        (rewind st n).1.state =
          (match removed.head? with
           | some r => r.state_before
           | none => st.state) ∧
        (rewind st n).2 =
          (removed.map fun e => CharsOrBytes.for_str e.text).foldl (· + ·) ⟨0, 0⟩) := by
  refine ⟨find_action_delete_before_le, fun st n hn => ?_⟩
  refine ⟨st.backlog.take (st.backlog.length - n), st.backlog.drop (st.backlog.length - n),
    (List.take_append_drop _ _).symm, by simp; omega, ?_, ?_, ?_⟩
  · rw [rewind]
    cases h : st.backlog[st.backlog.length - n]? <;> simp [h]
  · rw [rewind]
    rw [list_getElem?_eq_drop_head]
    cases h : (st.backlog.drop (st.backlog.length - n)).head? <;> simp [h]
  · rw [rewind]
    cases h : st.backlog[st.backlog.length - n]? <;> simp [h]

/-- Witness for `retraction_safe`: the bound at a one-event journal, and the
rewind decomposition for retracting that event. -/
theorem retraction_safe_witness :
    ((find_action emptyConfig ⟨InputState.INITIAL, [ev0]⟩ chordS).delete_before
      ≤ (Steno.mk InputState.INITIAL [ev0]).backlog.length)
    ∧ (1 ≤ (Steno.mk InputState.INITIAL [ev0]).backlog.length
      ∧ ∃ kept removed : List InputEvent,
        (Steno.mk InputState.INITIAL [ev0]).backlog = kept ++ removed
        ∧ removed.length = 1
        ∧ (rewind ⟨InputState.INITIAL, [ev0]⟩ 1).1.backlog = kept
        ∧ (rewind ⟨InputState.INITIAL, [ev0]⟩ 1).1.state =
            (match removed.head? with
             | some r => r.state_before
             | none => InputState.INITIAL)
        ∧ (rewind ⟨InputState.INITIAL, [ev0]⟩ 1).2 =
            (removed.map fun e => CharsOrBytes.for_str e.text).foldl (· + ·) ⟨0, 0⟩) :=
  ⟨retraction_safe.1 emptyConfig ⟨InputState.INITIAL, [ev0]⟩ chordS,
    by simp, retraction_safe.2 ⟨InputState.INITIAL, [ev0]⟩ 1 (by simp)⟩

/-! ## C5 / C6: the Backspace instruction and the delete_words assertion -/

theorem takeBytes_append (u t : List Char) : takeBytes (u ++ t) (byteLen u) = u := by
  induction u with
  | nil =>
    cases t with
    | nil => rfl
    | cons c cs =>
      have hpos := Char.utf8Size_pos c
      simp only [List.nil_append, takeBytes, byteLen, List.map_nil, List.sum_nil]
      rw [if_neg (by omega)]
  | cons c u ih =>
    simp only [List.cons_append, takeBytes, byteLen, List.map_cons, List.sum_cons]
    rw [if_pos (Nat.le_add_right _ _), Nat.add_sub_cancel_left]
    exact congrArg (c :: ·) ih

theorem applyDelete_cancel (out : Output) (u t : List Char)
    (h : out.append = u ++ t) :
    out.applyDelete (CharsOrBytes.for_str t) = { out with append := u } := by
  have hbl : byteLen (u ++ t) = byteLen u + byteLen t := by
    simp [byteLen]
  have hle : (CharsOrBytes.for_str t).bytes ≤ byteLen out.append := by
    rw [h, hbl]; simp [CharsOrBytes.for_str]
  rw [Output.applyDelete, if_pos hle, h, CharsOrBytes.for_str, hbl,
    Nat.add_sub_cancel, takeBytes_append]

theorem runParts_backspace_pop (cfg : Config) (g : Bool) (s : InputState)
    (init : List InputEvent) (prev : InputEvent) (out : Output)
    (rest : List EntryPart) :
    runParts cfg g ⟨s, init ++ [prev]⟩ out (.Plover .Backspace :: rest) =
      runParts cfg g ⟨prev.state_before, init⟩
        (out.applyDelete (CharsOrBytes.for_str prev.text)) rest := by
  simp [runParts, run_part, List.getLast?_concat, List.dropLast_concat]

theorem runParts_backspace_empty (cfg : Config) (g : Bool) (s : InputState)
    (out : Output) (rest : List EntryPart) (h : out.append = []) :
    runParts cfg g ⟨s, []⟩ out (.Plover .Backspace :: rest) =
      runParts cfg g ⟨s, []⟩ { out with delete_words := out.delete_words + 1 } rest := by
  simp [runParts, run_part, Output.applyDeleteWords, h]

theorem runParts_backspace_panic (cfg : Config) (g : Bool) (s : InputState)
    (out : Output) (rest : List EntryPart) (h : out.append ≠ []) :
    runParts cfg g ⟨s, []⟩ out (.Plover .Backspace :: rest) = none := by
  simp [runParts, run_part, Output.applyDeleteWords, h]

/-- C5, amended.  A `Backspace` instruction with a non-empty journal pops
exactly the last journal event, restores the formatting state recorded
before it, and feeds that event's dual-unit text length to the accumulator's
delete — which cancels same-call staged text instead of growing the delete
span when the amount fits.  With an empty journal it increments
`delete_words` by exactly 1 *provided no text is staged this call* (the
as-written claim fails otherwise: see `backspace_empty_staged_panics`). -/
theorem backspace_instruction :
    (∀ (cfg : Config) (g : Bool) (s : InputState) (init : List InputEvent)
        (prev : InputEvent) (out : Output) (rest : List EntryPart),
      runParts cfg g ⟨s, init ++ [prev]⟩ out (.Plover .Backspace :: rest) =
        runParts cfg g ⟨prev.state_before, init⟩
          (out.applyDelete (CharsOrBytes.for_str prev.text)) rest)
    ∧ (∀ (cfg : Config) (g : Bool) (s : InputState) (out : Output)
        (rest : List EntryPart), out.append = [] →
      runParts cfg g ⟨s, []⟩ out (.Plover .Backspace :: rest) =
        runParts cfg g ⟨s, []⟩
          { out with delete_words := out.delete_words + 1 } rest)
    ∧ (∀ (out : Output) (u t : List Char), out.append = u ++ t →
      out.applyDelete (CharsOrBytes.for_str t) = { out with append := u }) :=
  ⟨runParts_backspace_pop, runParts_backspace_empty, applyDelete_cancel⟩

/-- Counterexample to C5 as stated: with an empty journal and text staged
this call, a `Backspace` instruction does not increment the whole-word
deletion count — the `delete_words` assertion fails (modelled as `none`). -/
theorem backspace_empty_staged_panics :
    runParts emptyConfig false Steno.start ⟨0, ⟨0, 0⟩, ['x']⟩
      [.Plover .Backspace] = none := by
  decide

/-- Witness for `backspace_instruction`: popping the single event of a
one-event journal, and the empty-journal increment with nothing staged. -/
theorem backspace_instruction_witness :
    (runParts emptyConfig false ⟨InputState.INITIAL, [ev0]⟩ (Output.new ⟨0, 0⟩)
        [.Plover .Backspace] =
      runParts emptyConfig false ⟨ev0.state_before, []⟩
        ((Output.new ⟨0, 0⟩).applyDelete (CharsOrBytes.for_str ev0.text)) [])
    ∧ ((Output.new ⟨0, 0⟩).append = []
      ∧ runParts emptyConfig false ⟨InputState.INITIAL, []⟩ (Output.new ⟨0, 0⟩)
          [.Plover .Backspace] =
        runParts emptyConfig false ⟨InputState.INITIAL, []⟩
          { Output.new ⟨0, 0⟩ with delete_words := (Output.new ⟨0, 0⟩).delete_words + 1 }
          [])
    ∧ ((⟨0, ⟨0, 0⟩, ['a', 'b']⟩ : Output).append = ['a'] ++ ['b']
      ∧ (⟨0, ⟨0, 0⟩, ['a', 'b']⟩ : Output).applyDelete
            (CharsOrBytes.for_str ['b']) =
          { (⟨0, ⟨0, 0⟩, ['a', 'b']⟩ : Output) with append := ['a'] }) :=
  ⟨backspace_instruction.1 emptyConfig false InputState.INITIAL [] ev0
      (Output.new ⟨0, 0⟩) [],
    ⟨rfl, backspace_instruction.2.1 emptyConfig false InputState.INITIAL
      (Output.new ⟨0, 0⟩) [] rfl⟩,
    ⟨rfl, backspace_instruction.2.2 ⟨0, ⟨0, 0⟩, ['a', 'b']⟩ ['a'] ['b'] rfl⟩⟩

/-- C6 (code bug): the `assert!(self.append.is_empty())` in
`Output::delete_words` is reachable.  With an empty journal, an entry that
first stages text and then issues `Backspace` reaches the
backspace-with-empty-journal branch with a non-empty append buffer, so the
assertion fails (the run is `none`, modelling the Rust panic). -/
theorem delete_words_assertion_reachable :
    handle_keys bugConfig Steno.start chordS = none := by
  decide

/-! ## C1: Quit handling -/

/-- C1, amended.  When an instruction signals `Quit`, the loop stops at once
(the remaining instructions are never examined), the caller receives the
bare quit indicator, the state mutations applied so far persist — but the
accumulated partial `Output` is discarded, and `run_action` skips the
journal evict/push phase entirely on a quit. -/
theorem quit_terminates :
    (∀ (cfg : Config) (g : Bool) (st : Steno) (out : Output)
        (rest : List EntryPart),
      runParts cfg g st out (.Plover .Quit :: rest) = some (st, .error .Quit))
    ∧ (∀ (cfg : Config) (st : Steno) (action : Action') (st3 : Steno)
        (q : SpecialAction),
      runParts cfg (rewind st action.delete_before).1.state.glue
          (clearGlue (rewind st action.delete_before).1)
          (Output.new (rewind st action.delete_before).2) action.entry =
        some (st3, .error q) →
      run_action cfg st action = some (st3, .error q)) := by
  constructor
  · intro cfg g st out rest
    rfl
  · intro cfg st action st3 q h
    rw [run_action]
    simp only [h]

/-- Counterexample to C1 as stated: an action that stages the text `x` and
then quits.  The staged text (capitalized to `X`) is neither returned to the
caller (the result carries only the quit indicator, no `Output`) nor
recorded in the journal (the backlog stays empty); only the formatting-state
mutation survives. -/
theorem quit_discards_partial_output :
    run_action emptyConfig Steno.start
        ⟨[.Verbatim ['x'], .Plover .Quit], [chordS], 0⟩ =
      some (⟨⟨none, true, false, false⟩, []⟩, .error .Quit) := by
  decide

/-- Witness for `quit_terminates`: the quit-only action at the initial
state. -/
theorem quit_terminates_witness :
    (runParts emptyConfig (rewind Steno.start 0).1.state.glue
        (clearGlue (rewind Steno.start 0).1)
        (Output.new (rewind Steno.start 0).2) [.Plover .Quit] =
      some (Steno.start, .error .Quit))
    ∧ run_action emptyConfig Steno.start ⟨[.Plover .Quit], [chordS], 0⟩ =
        some (Steno.start, .error .Quit) :=
  ⟨rfl,
    quit_terminates.2 emptyConfig Steno.start ⟨[.Plover .Quit], [chordS], 0⟩
      Steno.start .Quit rfl⟩

/-! ## C7: the glue flag is not threaded between instructions of one action -/

/-- Counterexample to C7 as stated: in the entry `[Glue, Glue]` executed with
a clear incoming glue flag, the second `Glue` does *not* observe the glue
flag just set by the first one — the source passes every instruction the
fixed start-of-action flag.  Under the code the pending space survives
(`space = true`); under the spec's instruction-to-instruction threading it
would be cleared (`space = false`). -/
theorem glue_not_threaded_within_action :
    (runParts emptyConfig false stG (Output.new ⟨0, 0⟩) [.Glue, .Glue] =
      some (⟨⟨none, true, false, true⟩, []⟩, .ok (Output.new ⟨0, 0⟩)))
    ∧ (runPartsThreadedSpec emptyConfig false stG (Output.new ⟨0, 0⟩) [.Glue, .Glue] =
      some (⟨⟨none, false, false, true⟩, []⟩, .ok (Output.new ⟨0, 0⟩)))
    ∧ runParts emptyConfig false stG (Output.new ⟨0, 0⟩) [.Glue, .Glue] ≠
        runPartsThreadedSpec emptyConfig false stG (Output.new ⟨0, 0⟩)
          [.Glue, .Glue] := by
  refine ⟨rfl, rfl, ?_⟩
  decide

/-- C7, amended.  Every instruction of an action observes as "previous was a
glue marker" the glue flag as it stood when the action began (the flag left
by the previous action, restored by the rewind); the flag is not re-threaded
between instructions of the same action — in particular, the second of two
consecutive `Glue` instructions still observes the start-of-action flag.  A
`Glue` instruction clears the pending space and resets capsMode exactly when
that flag is set, and always sets the engine glue flag true. -/
theorem glue_flag_semantics :
    (∀ (cfg : Config) (g : Bool) (st : Steno) (out : Output),
      run_part cfg st out g .Glue =
        .ok ({ st with state :=
            if g then { st.state with space := false, caps := none, glue := true }
            else { st.state with glue := true } }, out))
    ∧ (∀ (cfg : Config) (g : Bool) (st : Steno) (out : Output),
      runParts cfg g st out [.Glue, .Glue] =
        some ({ st with state :=
            if g then { st.state with space := false, caps := none, glue := true }
            else { st.state with glue := true } }, .ok out)) := by
  constructor
  · intro cfg g st out
    cases g <;> rfl
  · intro cfg g st out
    cases g <;> rfl

/-! ## C4 / C10: the bounded journal -/

theorem runVerbatim_backlog (cfg : Config) (st : Steno) (out : Output)
    (t : List Char) : (runVerbatim cfg st out t).1.backlog = st.backlog := rfl

theorem clearGlue_backlog (st : Steno) : (clearGlue st).backlog = st.backlog := rfl

theorem run_part_ok_backlog (cfg : Config) (st : Steno) (out : Output) (g : Bool)
    (p : EntryPart) (r : Steno × Output) (h : run_part cfg st out g p = .ok r) :
    r.1.backlog = st.backlog := by
  cases p with
  | Verbatim t =>
    simp only [run_part] at h
    rw [← Except.ok.inj h]
    rfl
  | SpecialPunct punct =>
    simp only [run_part] at h
    rw [← Except.ok.inj h]
  | SetCaps b =>
    simp only [run_part] at h
    rw [← Except.ok.inj h]
  | SetSpace b =>
    simp only [run_part] at h
    rw [← Except.ok.inj h]
  | CarryToNext =>
    simp only [run_part] at h
    rw [← Except.ok.inj h]
  | Glue =>
    simp only [run_part] at h
    rw [← Except.ok.inj h]
  | Plover c =>
    simp [run_part] at h

theorem runParts_ok_backlog (cfg : Config) (g : Bool) :
    ∀ (parts : List EntryPart) (st : Steno) (out : Output) (st' : Steno)
      (r : Except SpecialAction Output),
      runParts cfg g st out parts = some (st', r) →
      st'.backlog.length ≤ st.backlog.length ∧
        ∀ ev ∈ st'.backlog, ev ∈ st.backlog := by
  intro parts
  induction parts with
  | nil =>
    intro st out st' r h
    simp only [runParts, Option.some.injEq, Prod.mk.injEq] at h
    rw [← h.1]
    exact ⟨Nat.le_refl _, fun ev he => he⟩
  | cons p rest ih =>
    intro st out st' r h
    simp only [runParts] at h
    cases hp : run_part cfg st out g p with
    | ok pr =>
      rw [hp] at h
      have hb := run_part_ok_backlog cfg st out g p pr hp
      have hrec := ih pr.1 pr.2 st' r h
      rw [hb] at hrec
      exact hrec
    | error c =>
      rw [hp] at h
      cases c with
      | Backspace =>
        cases hl : st.backlog.getLast? with
        | some prev =>
          rw [hl] at h
          have hrec := ih _ _ st' r h
          refine ⟨Nat.le_trans hrec.1 ?_, fun ev he => ?_⟩
          · simp only [List.length_dropLast]
            omega
          · exact (List.dropLast_sublist _).subset (hrec.2 ev he)
        | none =>
          rw [hl] at h
          cases hd : out.applyDeleteWords 1 with
          | some out' =>
            rw [hd] at h
            exact ih _ _ st' r h
          | none =>
            rw [hd] at h
            exact absurd h (by simp)
      | Quit =>
        simp only [Option.some.injEq, Prod.mk.injEq] at h
        rw [← h.1]
        exact ⟨Nat.le_refl _, fun ev he => he⟩

theorem rewind_backlog (st : Steno) (n : Nat) :
    (rewind st n).1.backlog = st.backlog.take (st.backlog.length - n) := by
  rw [rewind]
  cases h : st.backlog[st.backlog.length - n]? <;> simp [h]

theorem commitEvent_state (st : Steno) (strokes : List Keys) (text : List Char)
    (sb : InputState) : (commitEvent st strokes text sb).state = st.state := by
  rw [commitEvent]
  by_cases h1 : st.backlog.length = BACKLOG_DEPTH <;>
    by_cases h2 : text.isEmpty <;> simp [h1, h2]

theorem commitEvent_length (st : Steno) (strokes : List Keys) (text : List Char)
    (sb : InputState) (h : st.backlog.length ≤ BACKLOG_DEPTH) :
    (commitEvent st strokes text sb).backlog.length ≤ BACKLOG_DEPTH := by
  have hd : BACKLOG_DEPTH = 1000 := rfl
  rw [commitEvent]
  by_cases h1 : st.backlog.length = BACKLOG_DEPTH <;>
    by_cases h2 : text.isEmpty <;>
      simp [h1, h2, List.length_tail] <;> omega

theorem commitEvent_mem (st : Steno) (strokes : List Keys) (text : List Char)
    (sb : InputState) :
    ∀ ev ∈ (commitEvent st strokes text sb).backlog,
      ev ∈ st.backlog ∨ (text.isEmpty = false ∧ ev = ⟨strokes, text, sb⟩) := by
  intro ev he
  rw [commitEvent] at he
  by_cases h1 : st.backlog.length = BACKLOG_DEPTH
  · rw [if_pos h1] at he
    by_cases h2 : text.isEmpty
    · rw [if_pos h2] at he
      exact Or.inl ((List.tail_sublist _).subset he)
    · rw [if_neg h2] at he
      rcases List.mem_append.mp he with h3 | h3
      · exact Or.inl ((List.tail_sublist _).subset h3)
      · exact Or.inr ⟨by simpa using h2, List.mem_singleton.mp h3⟩
  · rw [if_neg h1] at he
    by_cases h2 : text.isEmpty
    · rw [if_pos h2] at he
      exact Or.inl he
    · rw [if_neg h2] at he
      rcases List.mem_append.mp he with h3 | h3
      · exact Or.inl h3
      · exact Or.inr ⟨by simpa using h2, List.mem_singleton.mp h3⟩

theorem run_action_invariant (cfg : Config) (st : Steno) (a : Action')
    (st' : Steno) (r : Except SpecialAction Output)
    (hlen : st.backlog.length ≤ BACKLOG_DEPTH)
    (htext : ∀ ev ∈ st.backlog, ev.text ≠ [])
    (h : run_action cfg st a = some (st', r)) :
    st'.backlog.length ≤ BACKLOG_DEPTH ∧ ∀ ev ∈ st'.backlog, ev.text ≠ [] := by
  rw [run_action] at h
  cases hp : runParts cfg (rewind st a.delete_before).1.state.glue
      (clearGlue (rewind st a.delete_before).1)
      (Output.new (rewind st a.delete_before).2) a.entry with
  | none =>
    rw [hp] at h
    exact absurd h (by simp)
  | some pr =>
    rw [hp] at h
    obtain ⟨st3, r3⟩ := pr
    have hrp := runParts_ok_backlog cfg (rewind st a.delete_before).1.state.glue
      a.entry (clearGlue (rewind st a.delete_before).1)
      (Output.new (rewind st a.delete_before).2) st3 r3 hp
    have hchain_len : st3.backlog.length ≤ st.backlog.length := by
      refine Nat.le_trans hrp.1 ?_
      rw [clearGlue_backlog, rewind_backlog]
      simp [List.length_take]
    have hchain_mem : ∀ ev ∈ st3.backlog, ev ∈ st.backlog := by
      intro ev he
      have := hrp.2 ev he
      rw [clearGlue_backlog, rewind_backlog] at this
      exact List.take_subset _ _ this
    cases r3 with
    | error q =>
      simp only [Option.some.injEq, Prod.mk.injEq] at h
      rw [← h.1]
      exact ⟨Nat.le_trans hchain_len hlen,
        fun ev he => htext ev (hchain_mem ev he)⟩
    | ok out =>
      simp only [Option.some.injEq, Prod.mk.injEq] at h
      rw [← h.1]
      refine ⟨commitEvent_length _ _ _ _ (Nat.le_trans hchain_len hlen),
        fun ev he => ?_⟩
      rcases commitEvent_mem _ _ _ _ ev he with h3 | ⟨hne, heq⟩
      · exact htext ev (hchain_mem ev h3)
      · rw [heq]
        simpa using hne

theorem handleSeq_invariant (cfg : Config) :
    ∀ (chords : List Keys) (st st' : Steno),
      st.backlog.length ≤ BACKLOG_DEPTH →
      (∀ ev ∈ st.backlog, ev.text ≠ []) →
      handleSeq cfg st chords = some st' →
      st'.backlog.length ≤ BACKLOG_DEPTH ∧ ∀ ev ∈ st'.backlog, ev.text ≠ [] := by
  intro chords
  induction chords with
  | nil =>
    intro st st' h1 h2 h
    simp only [handleSeq, Option.some.injEq] at h
    rw [← h]
    exact ⟨h1, h2⟩
  | cons k ks ih =>
    intro st st' h1 h2 h
    simp only [handleSeq] at h
    cases hk : handle_keys cfg st k with
    | none =>
      rw [hk] at h
      exact absurd h (by simp)
    | some pr =>
      rw [hk] at h
      obtain ⟨st1, r1⟩ := pr
      have hinv := run_action_invariant cfg st (find_action cfg st k) st1 r1 h1 h2 hk
      cases r1 with
      | error q =>
        simp only [Option.some.injEq] at h
        rw [← h]
        exact hinv
      | ok out =>
        exact ih st1 st' hinv.1 hinv.2 h

theorem rewind_zero (st : Steno) : rewind st 0 = (st, ⟨0, 0⟩) := by
  rw [rewind]
  simp [List.getElem?_eq_none, List.drop_length, List.take_length]

/-- C10: confirmed.  The journal-commit phase first evicts the oldest event
whenever the backlog is at capacity, and only then pushes a new event if the
action produced text: an action with an empty instruction list executed
against a full journal leaves it at 999 events — "evict then conditionally
push", not "evict only to make room". -/
theorem evict_then_push (cfg : Config) (st : Steno) (strokes : List Keys)
    (h : st.backlog.length = BACKLOG_DEPTH) :
    run_action cfg st ⟨[], strokes, 0⟩ =
      some ({ st with state := { st.state with glue := false },
                      backlog := st.backlog.tail }, .ok (Output.new ⟨0, 0⟩))
    ∧ st.backlog.tail.length = BACKLOG_DEPTH - 1 := by
  constructor
  · rw [run_action]
    simp only [rewind_zero, runParts, commitEvent, clearGlue, h]
    simp [Output.new]
  · simp [h]

/-- Witness for `evict_then_push`: a concrete full journal of 1000 events
shrinks to 999 under the empty-entry action. -/
theorem evict_then_push_witness :
    ((Steno.mk InputState.INITIAL (List.replicate BACKLOG_DEPTH ev0)).backlog.length
        = BACKLOG_DEPTH)
    ∧ (run_action emptyConfig
          ⟨InputState.INITIAL, List.replicate BACKLOG_DEPTH ev0⟩ ⟨[], [chordS], 0⟩ =
        some (⟨{ InputState.INITIAL with glue := false },
            (List.replicate BACKLOG_DEPTH ev0).tail⟩, .ok (Output.new ⟨0, 0⟩))
      ∧ (List.replicate BACKLOG_DEPTH ev0).tail.length = BACKLOG_DEPTH - 1) :=
  ⟨by simp,
    evict_then_push emptyConfig
      ⟨InputState.INITIAL, List.replicate BACKLOG_DEPTH ev0⟩ [chordS] (by simp)⟩

theorem searchLoop_nolookup (this : Keys) :
    ∀ events : List InputEvent,
      searchLoop (fun _ => none) this events = make_fallback_action this := by
  intro events
  induction events with
  | nil => rfl
  | cons e r ih => simpa only [searchLoop] using ih

theorem find_action_emptyConfig (st : Steno) (k : Keys)
    (hn : k .NumberBar = false) :
    find_action emptyConfig st k = make_fallback_action k := by
  rw [find_action, if_neg (by simp [hn])]
  exact searchLoop_nolookup k _

theorem handle_keys_steady (bl : List InputEvent) (h : bl.length ≤ BACKLOG_DEPTH) :
    ∃ bl2 : List InputEvent,
      handle_keys emptyConfig ⟨stateSteady, bl⟩ chordS =
        some (⟨stateSteady, bl2⟩, .ok ⟨0, ⟨0, 0⟩, [' ', 'S']⟩)
      ∧ bl2.length = min (bl.length + 1) BACKLOG_DEPTH := by
  have hcommit :
      commitEvent ⟨stateSteady, bl⟩ [chordS] [' ', 'S'] stateSteady =
        ⟨stateSteady,
          (commitEvent ⟨stateSteady, bl⟩ [chordS] [' ', 'S'] stateSteady).backlog⟩ := by
    calc commitEvent ⟨stateSteady, bl⟩ [chordS] [' ', 'S'] stateSteady
        = ⟨(commitEvent ⟨stateSteady, bl⟩ [chordS] [' ', 'S'] stateSteady).state,
            (commitEvent ⟨stateSteady, bl⟩ [chordS] [' ', 'S'] stateSteady).backlog⟩ :=
          rfl
      _ = _ := by rw [commitEvent_state]
  have base : handle_keys emptyConfig ⟨stateSteady, bl⟩ chordS =
      some (commitEvent ⟨stateSteady, bl⟩ [chordS] [' ', 'S'] stateSteady,
        .ok ⟨0, ⟨0, 0⟩, [' ', 'S']⟩) := by
    rw [handle_keys, find_action_emptyConfig _ _ (by decide)]
    rw [run_action]
    simp only [make_fallback_action, make_text_action, make_simple_action,
      rewind_zero]
    rfl
  refine ⟨(commitEvent ⟨stateSteady, bl⟩ [chordS] [' ', 'S'] stateSteady).backlog,
    ?_, ?_⟩
  · rw [base, hcommit]
  · have hd : BACKLOG_DEPTH = 1000 := rfl
    rw [commitEvent]
    by_cases h1 : bl.length = BACKLOG_DEPTH <;>
      simp [h1, List.length_tail] <;> omega

theorem iter_steady :
    ∀ (n : Nat) (bl : List InputEvent), bl.length ≤ BACKLOG_DEPTH →
      ∃ bl' : List InputEvent,
        handleSeq emptyConfig ⟨stateSteady, bl⟩ (List.replicate n chordS) =
          some ⟨stateSteady, bl'⟩
        ∧ bl'.length = min (bl.length + n) BACKLOG_DEPTH := by
  intro n
  induction n with
  | zero =>
    intro bl h
    exact ⟨bl, rfl, by omega⟩
  | succ n ih =>
    intro bl h
    obtain ⟨bl2, hstep, hlen2⟩ := handle_keys_steady bl h
    obtain ⟨bl', hs, hl⟩ := ih bl2 (by omega)
    refine ⟨bl', ?_, by omega⟩
    rw [List.replicate_succ]
    simp only [handleSeq]
    rw [hstep]
    exact hs

theorem handle_keys_first :
    handle_keys emptyConfig Steno.start chordS =
      some (⟨stateSteady, [⟨[chordS], ['S'], InputState.INITIAL⟩]⟩,
        .ok ⟨0, ⟨0, 0⟩, ['S']⟩) := by
  decide

/-- C4: confirmed.  The journal length never exceeds 1000 under any sequence
of handled chords, every journal event records non-empty text, at capacity
the oldest event is the one evicted (FIFO) before the new event is pushed,
and submitting at least 1000 chords that each produce non-empty text (the
literal fallback of an empty dictionary) leaves the journal at exactly
1000 events. -/
theorem journal_bounded :
    (∀ (cfg : Config) (chords : List Keys) (st st' : Steno),
      st.backlog.length ≤ BACKLOG_DEPTH →
      (∀ ev ∈ st.backlog, ev.text ≠ []) →
      handleSeq cfg st chords = some st' →
      st'.backlog.length ≤ BACKLOG_DEPTH ∧ ∀ ev ∈ st'.backlog, ev.text ≠ [])
    ∧ (∀ (st : Steno) (strokes : List Keys) (text : List Char) (sb : InputState),
      st.backlog.length = BACKLOG_DEPTH → text.isEmpty = false →
      (commitEvent st strokes text sb).backlog =
        st.backlog.tail ++ [⟨strokes, text, sb⟩]
      ∧ (commitEvent st strokes text sb).backlog.length = BACKLOG_DEPTH)
    ∧ (∀ n : Nat, BACKLOG_DEPTH ≤ n → ∃ st' : Steno,
      handleSeq emptyConfig Steno.start (List.replicate n chordS) = some st'
      ∧ st'.backlog.length = BACKLOG_DEPTH) := by
  refine ⟨fun cfg chords => handleSeq_invariant cfg chords, ?_, ?_⟩
  · intro st strokes text sb h1 h2
    have hd : BACKLOG_DEPTH = 1000 := rfl
    rw [commitEvent]
    constructor
    · simp [h1, h2]
    · simp [h1, h2, List.length_tail]
      omega
  · intro n hn
    have hd : BACKLOG_DEPTH = 1000 := rfl
    obtain ⟨m, rfl⟩ : ∃ m, n = m + 1 := ⟨n - 1, by omega⟩
    obtain ⟨bl', hs, hl⟩ :=
      iter_steady m [⟨[chordS], ['S'], InputState.INITIAL⟩] (by decide)
    refine ⟨⟨stateSteady, bl'⟩, ?_, ?_⟩
    · rw [List.replicate_succ]
      simp only [handleSeq]
      rw [handle_keys_first]
      exact hs
    · show bl'.length = BACKLOG_DEPTH
      simp only [List.length_singleton] at hl
      omega

/-- Witness for `journal_bounded`: the invariant applied to the empty start
state and an empty chord list; the FIFO commit on a concrete full journal;
and the 1000-chord saturation at exactly `n = 1000`. -/
theorem journal_bounded_witness :
    ((Steno.start.backlog.length ≤ BACKLOG_DEPTH)
      ∧ (∀ ev ∈ Steno.start.backlog, ev.text ≠ [])
      ∧ (Steno.start.backlog.length ≤ BACKLOG_DEPTH
        ∧ ∀ ev ∈ Steno.start.backlog, ev.text ≠ []))
    ∧ ((Steno.mk InputState.INITIAL (List.replicate BACKLOG_DEPTH ev0)).backlog.length
          = BACKLOG_DEPTH
      ∧ (['Y'] : List Char).isEmpty = false
      ∧ ((commitEvent ⟨InputState.INITIAL, List.replicate BACKLOG_DEPTH ev0⟩
            [chordS] ['Y'] InputState.INITIAL).backlog =
          (List.replicate BACKLOG_DEPTH ev0).tail ++ [⟨[chordS], ['Y'], InputState.INITIAL⟩]
        ∧ (commitEvent ⟨InputState.INITIAL, List.replicate BACKLOG_DEPTH ev0⟩
            [chordS] ['Y'] InputState.INITIAL).backlog.length = BACKLOG_DEPTH))
    ∧ (BACKLOG_DEPTH ≤ BACKLOG_DEPTH
      ∧ ∃ st' : Steno,
        handleSeq emptyConfig Steno.start (List.replicate BACKLOG_DEPTH chordS) =
          some st'
        ∧ st'.backlog.length = BACKLOG_DEPTH) :=
  ⟨⟨by simp [Steno.start], by simp [Steno.start],
      journal_bounded.1 emptyConfig [] Steno.start Steno.start
        (by simp [Steno.start]) (by simp [Steno.start]) rfl⟩,
    ⟨by simp, rfl,
      journal_bounded.2.1 ⟨InputState.INITIAL, List.replicate BACKLOG_DEPTH ev0⟩
        [chordS] ['Y'] InputState.INITIAL (by simp) rfl⟩,
    ⟨Nat.le_refl _, journal_bounded.2.2 BACKLOG_DEPTH (Nat.le_refl _)⟩⟩
